import Mathlib

/-!
Verification development for the Fracta core (VFS / Note / Index).

Shallow embedding of the Rust sources:
  * `crates/fracta-vfs/src/ignore.rs`    — gitignore-dialect matcher
  * `crates/fracta-vfs/src/location.rs`  — path containment (`resolve_and_check`)
  * `crates/fracta-note/src/front_matter.rs` — YAML front-matter accessors
  * `crates/fracta-index/src/metadata.rs` — SQLite metadata store
  * `crates/fracta-index/src/search.rs`  — Tantivy search index writer
  * `crates/fracta-index/src/lib.rs`     — orchestrator (`build_full`, `update_incremental`)

Paths are modelled as lists of components (`List String`); timestamps as
integers in milliseconds (chrono `DateTime<Utc>` at millisecond resolution);
the external glob matcher and the RFC 3339 parser are abstract function
parameters, so every theorem quantifies over their behaviour.
-/

namespace Fracta

/- ──────────────────────────── IgnoreRules (ignore.rs) ─────────────────── -/

/-- A compiled ignore rule: `matcher` is the compiled glob matcher
(globset `GlobMatcher::is_match`, kept abstract), `negated` the `!` flag,
`dir_only` the trailing-`/` flag.  Mirrors `struct Rule` in `ignore.rs`. -/
structure Rule where
  matcher : List String → Bool
  negated : Bool
  dir_only : Bool

/-- A compiled set of ignore rules (`struct IgnoreRules`). -/
structure IgnoreRules where
  rules : List Rule

/-- Model of `IgnoreRules::matches_rules`: evaluate every rule in order against a single
path; a matching rule sets the determination to `!negated`; directory-only
rules are skipped for non-directories. -/
def matches_rules (rs : IgnoreRules) (rel_path : List String) (is_dir : Bool) : Bool :=
  rs.rules.foldl
    (fun ignored rule =>
      if rule.dir_only && !is_dir then ignored
      else if rule.matcher rel_path then !rule.negated
      else ignored)
    false

/-- Loop body of `IgnoreRules::is_ignored`: walk the components left to right,
keeping the accumulated prefix, returning true as soon as a prefix matches.
Non-terminal prefixes are treated as directories. -/
def is_ignored_loop (rs : IgnoreRules) (accumulated : List String)
    (is_dir : Bool) : List String → Bool
  | [] => false
  | c :: rest =>
    let acc := accumulated ++ [c]
    let check_is_dir := if rest.isEmpty then is_dir else true
    if matches_rules rs acc check_is_dir then true
    else is_ignored_loop rs acc is_dir rest

/-- Model of `IgnoreRules::is_ignored(rel_path, is_dir)` (ignore.rs, lines 134–150). -/
def is_ignored (rs : IgnoreRules) (rel_path : List String) (is_dir : Bool) : Bool :=
  is_ignored_loop rs [] is_dir rel_path

/- ─────────────────── Location::resolve_and_check (location.rs) ─────────── -/

/-- Abstract filesystem behaviour backing `Location::contains`:
`canonicalize` models `std::fs::canonicalize` (symlink resolution; fails on
missing paths or IO errors), `path_exists` models `Path::exists`.
Both take a path as a component list rooted at `/`. -/
structure FS where
  canonicalize : List String → Option (List String)
  path_exists : List String → Bool

/-- Model of `Path::file_name`: the last component, or none when the path is empty or
terminates in `..`. -/
def file_name (p : List String) : Option String :=
  match p.getLast? with
  | none => none
  | some c => if c = ".." then none else some c

/-- Model of `Path::parent`: drop the last component; none at the filesystem root. -/
def parent_path (p : List String) : Option (List String) :=
  match p with
  | [] => none
  | _ => some p.dropLast

/-- The walk-up loop of `resolve_and_check`: climb from the leaf towards the
root until an existing ancestor is found, accumulating the pending (not yet
existing) components.  Runs on the reversed component list so that the
recursion is structural; `rp.reverse` is the current `existing` path. -/
def walk_up (fs : FS) : List String → List String → Option (List String × List String)
  | rp, pending =>
    if fs.path_exists rp.reverse then some (rp.reverse, pending)
    else
      match rp with
      | [] => none
      | c :: rest =>
        if c = ".." then none
        else walk_up fs rest (c :: pending)

/-- Re-append the pending non-existent components onto the canonicalized
ancestor, rejecting any `..` component (location.rs, lines 189–195). -/
def append_pending (base : List String) : List String → Option (List String)
  | [] => some base
  | c :: rest => if c = ".." then none else append_pending (base ++ [c]) rest

/-- Model of `Location::resolve_and_check` (location.rs, lines 155–203): canonicalize
the root; canonicalize the candidate if it exists and accept iff the result
starts with the canonical root; otherwise canonicalize the nearest existing
ancestor, re-append the pending components (`..` rejected), and accept iff
the assembled path starts with the canonical root. -/
def resolve_and_check (fs : FS) (root p : List String) : Option (List String) :=
  match fs.canonicalize root with
  | none => none
  | some canonical_root =>
    match fs.canonicalize p with
    | some canonical_path =>
      if canonical_root.isPrefixOf canonical_path then some canonical_path else none
    | none =>
      match walk_up fs p.reverse [] with
      | none => none
      | some (existing, pending) =>
        match fs.canonicalize existing with
        | none => none
        | some resolved_base =>
          match append_pending resolved_base pending with
          | none => none
          | some resolved =>
            if canonical_root.isPrefixOf resolved then some resolved else none

/-- Model of `Location::contains` (location.rs, lines 147–149). -/
def location_contains (fs : FS) (root p : List String) : Bool :=
  (resolve_and_check fs root p).isSome

/- ───────────────────── FrontMatter (front_matter.rs) ───────────────────── -/

/-- serde_yaml `Value`, restricted to the shapes the accessors distinguish
(numbers are collapsed to integers: the string/non-string distinction is all
`get_string_list` inspects; mapping keys are modelled as strings). -/
inductive Yaml where
  | nullV : Yaml
  | boolV : Bool → Yaml
  | numV : Int → Yaml
  | strV : String → Yaml
  | seqV : List Yaml → Yaml
  | mapV : List (String × Yaml) → Yaml

/-- Model of `Value::get(key)` on a mapping (first matching key). -/
def yaml_get (v : Yaml) (key : String) : Option Yaml :=
  match v with
  | .mapV entries => (entries.find? (fun e => e.1 = key)).map (·.2)
  | _ => none

/-- Model of `Value::as_str`. -/
def yaml_as_str (v : Yaml) : Option String :=
  match v with
  | .strV s => some s
  | _ => none

/-- Model of `Value::as_sequence`. -/
def yaml_as_sequence (v : Yaml) : Option (List Yaml) :=
  match v with
  | .seqV items => some items
  | _ => none

/-- Parsed front matter: `fields` is the parsed YAML mapping. -/
structure FrontMatter where
  fields : Yaml

/-- Model of `FrontMatter::get_str(key)`. -/
def get_str (fm : FrontMatter) (key : String) : Option String :=
  (yaml_get fm.fields key).bind yaml_as_str

/-- Rust `Iterator::collect::<Option<Vec<&str>>>` over `v.as_str()`: the whole
list, or absent as soon as one element is not a string. -/
def collect_str : List Yaml → Option (List String)
  | [] => some []
  | v :: rest =>
    match yaml_as_str v with
    | none => none
    | some s =>
      match collect_str rest with
      | none => none
      | some l => some (s :: l)

/-- Model of `FrontMatter::get_string_list(key)` (front_matter.rs, lines 60–63):
`seq.iter().map(|v| v.as_str()).collect()` over `Option` — absent unless the
value is a sequence in which every element is a string. -/
def get_string_list (fm : FrontMatter) (key : String) : Option (List String) :=
  ((yaml_get fm.fields key).bind yaml_as_sequence).bind collect_str

/-- Tag extraction in `Index::index_file` (lib.rs, lines 236–241):
`fm.get_string_list("tags").unwrap_or_default()`. -/
def extract_tags (fm : FrontMatter) : List String :=
  (get_string_list fm "tags").getD []

/- ───────────────────── MetadataStore (metadata.rs) ─────────────────────── -/

/-- Timestamps: chrono `DateTime<Utc>` modelled at millisecond resolution. -/
abbrev Timestamp := Int

/-- External codecs used by the store, kept abstract: `to_rfc3339` models
`DateTime::to_rfc3339`, `parse_rfc3339` models `DateTime::parse_from_rfc3339`
(partial: fails on malformed text), `tags_from_json` models
`serde_json::from_str::<Vec<String>>`. -/
structure Codec where
  to_rfc3339 : Timestamp → String
  parse_rfc3339 : String → Option Timestamp
  tags_from_json : String → Option (List String)

/-- Error kinds of `fracta-index` (error.rs) relevant to the modelled paths. -/
inductive IndexError where
  | invalidState : String → IndexError
  | sqliteConstraint : IndexError
  | corruptedData : String → IndexError
deriving DecidableEq

/-- A row of the `files` table: `path TEXT PRIMARY KEY, mtime TEXT NOT NULL,
size INTEGER NOT NULL, content_hash TEXT, indexed INTEGER NOT NULL`. -/
structure FileRow where
  path : String
  mtime : String
  size : Int
  content_hash : Option String
  indexed : Bool
deriving DecidableEq

/-- A row of the `metadata` table: `path TEXT PRIMARY KEY REFERENCES
files(path) ON DELETE CASCADE, title TEXT, tags TEXT, date TEXT, area TEXT`. -/
structure MetaRow where
  path : String
  title : Option String
  tags : String
  date : Option String
  area : Option String
deriving DecidableEq

/-- The SQLite database state: the two tables created by `init_schema`. -/
structure DB where
  files : List FileRow
  metadata : List MetaRow
deriving DecidableEq

/-- Rust `FileEntry` (metadata.rs, lines 20–32): the in-memory record with the
mtime parsed back from the stored RFC 3339 text. -/
structure FileEntry where
  path : String
  mtime : Timestamp
  size : Int
  content_hash : Option String
  indexed : Bool
deriving DecidableEq

/-- Rust `FileMetadata` (metadata.rs, lines 34–45). -/
structure FileMetadata where
  title : Option String
  tags : List String
  date : Option String
  area : Option String
deriving DecidableEq

/-- JSON string escaping as performed by `serde_json::to_string` on the two
characters that can occur inside a JSON string encoding of a tag. -/
def json_escape_char (c : Char) : String :=
  if c = '\\' then "\\\\" else if c = '"' then "\\\"" else String.singleton c

/-- Model of `serde_json::to_string(&Vec<String>)` for the `tags` column. -/
def tags_to_json (tags : List String) : String :=
  "[" ++ String.intercalate "," (tags.map (fun t => "\"" ++ String.join (t.toList.map json_escape_char) ++ "\"")) ++ "]"

/-- Model of `MetadataStore::upsert_file` (metadata.rs, lines 104–124):
`INSERT ... ON CONFLICT(path) DO UPDATE SET ...` — update in place when a row
with the same primary key exists, append otherwise. -/
def upsert_file (c : Codec) (db : DB) (entry : FileEntry) : DB :=
  let row : FileRow :=
    ⟨entry.path, c.to_rfc3339 entry.mtime, entry.size, entry.content_hash, entry.indexed⟩
  if db.files.any (fun r => r.path = entry.path) then
    { db with files := db.files.map (fun r => if r.path = entry.path then row else r) }
  else
    { db with files := db.files ++ [row] }

/-- Model of `MetadataStore::upsert_metadata` (metadata.rs, lines 127–142). -/
def upsert_metadata (db : DB) (path : String) (meta : FileMetadata) : DB :=
  let row : MetaRow := ⟨path, meta.title, tags_to_json meta.tags, meta.date, meta.area⟩
  if db.metadata.any (fun r => r.path = path) then
    { db with metadata := db.metadata.map (fun r => if r.path = path then row else r) }
  else
    { db with metadata := db.metadata ++ [row] }

/-- The stored `files` row for a path (the row addressed by
`WHERE path = ?1`; `path` is the primary key). -/
def row_at (db : DB) (path : String) : Option FileRow :=
  db.files.find? (fun r => r.path = path)

/-- The value produced by the row-mapping closure of `MetadataStore::get_file`:
an unparseable stored mtime is silently replaced by the current time
(`DateTime::parse_from_rfc3339(..).unwrap_or_else(|_| Utc::now())`). -/
def lookup_entry (c : Codec) (now : Timestamp) (db : DB) (path : String) : Option FileEntry :=
  (row_at db path).map (fun r =>
    { path := r.path
      mtime := (c.parse_rfc3339 r.mtime).getD now
      size := r.size
      content_hash := r.content_hash
      indexed := r.indexed })

/-- Model of `MetadataStore::get_file` (metadata.rs, lines 145–167): the
row-mapping closure cannot fail, so the call always returns `Ok`. -/
def get_file (c : Codec) (now : Timestamp) (db : DB) (path : String) :
    Except IndexError (Option FileEntry) :=
  .ok (lookup_entry c now db path)

/-- Model of `MetadataStore::get_metadata` (metadata.rs, lines 170–191):
an unparseable tags column falls back to the empty list
(`tags_json.and_then(|s| serde_json::from_str(&s).ok()).unwrap_or_default()`). -/
def get_metadata (c : Codec) (db : DB) (path : String) :
    Except IndexError (Option FileMetadata) :=
  .ok ((db.metadata.find? (fun r => r.path = path)).map (fun r =>
    { title := r.title
      tags := (c.tags_from_json r.tags).getD []
      date := r.date
      area := r.area }))

/-- Model of `MetadataStore::remove_file` (metadata.rs, lines 213–219):
`DELETE FROM files WHERE path = ?1`, returning `deleted > 0`.  The connection
never issues `PRAGMA foreign_keys = ON`, and SQLite leaves foreign-key
enforcement off by default, so the declared `ON DELETE CASCADE` on
`metadata.path` does not fire: the metadata table is untouched. -/
def remove_file (db : DB) (path : String) : DB × Bool :=
  let remaining := db.files.filter (fun r => r.path != path)
  ({ db with files := remaining }, remaining.length < db.files.length)

/-- Model of `MetadataStore::remove_stale_files` (metadata.rs, lines 222–250).
Empty list: `DELETE FROM files` (truncate), count returned.  Otherwise the
supplied paths are inserted one by one into a temp table
`current_paths (path TEXT PRIMARY KEY)`; a duplicate in the supplied list
violates that primary key, so the insert statement fails with a SQLite
constraint error which propagates out through `?`.  Then
`DELETE FROM files WHERE path NOT IN (SELECT path FROM current_paths)`
returns the number of deleted rows.  The metadata table is untouched
(foreign-key enforcement is off, as in `remove_file`). -/
def remove_stale_files (db : DB) (current_paths : List String) :
    Except IndexError (DB × Nat) :=
  if current_paths.isEmpty then
    .ok ({ db with files := [] }, db.files.length)
  else if current_paths.Nodup then
    .ok ({ db with files := db.files.filter (fun r => current_paths.contains r.path) },
         (db.files.filter (fun r => !current_paths.contains r.path)).length)
  else
    .error .sqliteConstraint

/-- Model of `MetadataStore::file_count`: `SELECT COUNT(*) FROM files`. -/
def file_count (db : DB) : Nat := db.files.length

/-- Model of `MetadataStore::indexed_count`:
`SELECT COUNT(*) FROM files WHERE indexed = 1`. -/
def indexed_count (db : DB) : Nat := (db.files.filter (fun r => r.indexed)).length

/-- A bound SQL parameter (rusqlite `ToSql` values pushed into `params_vec`). -/
inductive SqlParam where
  | strP : String → SqlParam
  | intP : Int → SqlParam
deriving DecidableEq

/-- A composed SQL statement: the query text and its bound parameters. -/
structure SqlQuery where
  sql : String
  params : List SqlParam
deriving DecidableEq

/-- The dynamic query composition of `MetadataStore::search_by_metadata`
(metadata.rs, lines 314–350): fixed SQL fragments are appended depending on
which filters are present; every user-supplied value is pushed into the
parameter vector, never into the SQL text (the tag value is wrapped as the
LIKE pattern `%"<tag>%` — still a bound value).  Whitespace of the base
query is compressed. -/
def search_query (area tag date_from date_to : Option String) (limit : Nat) : SqlQuery :=
  let q : SqlQuery :=
    ⟨"SELECT f.path FROM files f LEFT JOIN metadata m ON f.path = m.path WHERE 1=1", []⟩
  let q : SqlQuery := match area with
    | some a => ⟨q.sql ++ " AND m.area = ?", q.params ++ [.strP a]⟩
    | none => q
  let q : SqlQuery := match tag with
    | some t => ⟨q.sql ++ " AND m.tags LIKE ?", q.params ++ [.strP ("%\"" ++ t ++ "%")]⟩
    | none => q
  let q : SqlQuery := match date_from with
    | some df => ⟨q.sql ++ " AND m.date >= ?", q.params ++ [.strP df]⟩
    | none => q
  let q : SqlQuery := match date_to with
    | some dt => ⟨q.sql ++ " AND m.date <= ?", q.params ++ [.strP dt]⟩
    | none => q
  ⟨q.sql ++ " ORDER BY f.mtime DESC LIMIT ?", q.params ++ [.intP limit]⟩

/-- Helper for the `%` wildcard of SQL LIKE: try the continuation on every
suffix of the text. -/
def like_any_suffix (f : List Char → Bool) : List Char → Bool
  | [] => f []
  | c :: ts => f (c :: ts) || like_any_suffix f ts

/-- SQL LIKE semantics (no ESCAPE clause): `%` matches any sequence, `_` any
single character, everything else literally. -/
def sql_like : List Char → List Char → Bool
  | [] => fun t => t.isEmpty
  | '%' :: ps => like_any_suffix (sql_like ps)
  | '_' :: ps => fun t => match t with | [] => false | _ :: ts => sql_like ps ts
  | c :: ps => fun t => match t with | [] => false | d :: ts => c = d && sql_like ps ts

/-- SQL LIKE on strings. -/
def sql_like_str (pattern text : String) : Bool :=
  sql_like pattern.toList text.toList

/-- Insertion into a list sorted by descending mtime text (`ORDER BY f.mtime
DESC`; SQLite compares TEXT bytewise, modelled by the string order). -/
def insert_mtime_desc (r : FileRow) : List FileRow → List FileRow
  | [] => [r]
  | x :: xs => if decide (x.mtime ≤ r.mtime) then r :: x :: xs else x :: insert_mtime_desc r xs

/-- Sort rows by descending mtime text. -/
def order_by_mtime_desc (rows : List FileRow) : List FileRow :=
  rows.foldr insert_mtime_desc []

/-- SQLite evaluation of the query family composed by `search_query`:
`files LEFT JOIN metadata` on path, each present filter compared against its
bound value (a NULL column never satisfies a comparison), ordered by
descending mtime, limited. -/
def run_search (db : DB) (area tag date_from date_to : Option String) (limit : Nat) :
    List String :=
  let rows := db.files.filter (fun f =>
    let m := db.metadata.find? (fun r => r.path = f.path)
    (match area with
      | none => true
      | some a => match m with
        | none => false
        | some mr => mr.area == some a) &&
    (match tag with
      | none => true
      | some t => match m with
        | none => false
        | some mr => sql_like_str ("%\"" ++ t ++ "%") mr.tags) &&
    (match date_from with
      | none => true
      | some df => match m with
        | none => false
        | some mr => match mr.date with
          | none => false
          | some d => decide (df ≤ d)) &&
    (match date_to with
      | none => true
      | some dt => match m with
        | none => false
        | some mr => match mr.date with
          | none => false
          | some d => decide (d ≤ dt)))
  ((order_by_mtime_desc rows).take limit).map (fun r => r.path)

/-- Model of `MetadataStore::search_by_metadata` (metadata.rs, lines 314–358):
prepare the query composed by `search_query` and execute it with its bound
parameters.  The receiver is `&self` and the statement is a SELECT,so the
store state is not modified. -/
def search_by_metadata (db : DB) (area tag date_from date_to : Option String)
    (limit : Nat) : Except IndexError (List String) :=
  .ok (run_search db area tag date_from date_to limit)

/- ───────────────────── SearchIndex (search.rs) ─────────────────────────── -/

/-- A document in the Tantivy index: stored `path`, `title`, `content`. -/
structure SearchDoc where
  path : String
  title : Option String
  content : String
deriving DecidableEq

/-- A pending writer operation: `delete_term` on the path field, or a
document addition. -/
inductive SIOp where
  | delTerm : String → SIOp
  | addDoc : SearchDoc → SIOp
deriving DecidableEq

/-- The path affected by a pending writer operation. -/
def op_path : SIOp → String
  | .delTerm p => p
  | .addDoc d => d.path

/-- State of the Tantivy `SearchIndex`: `writer_open` models
`self.writer.is_some()`, `pending` the operations buffered in the writer
since the last commit, `committed` the visible documents. -/
structure SearchIndex where
  writer_open : Bool
  pending : List SIOp
  committed : List SearchDoc
deriving DecidableEq

/-- A freshly opened index: no writer, nothing committed. -/
def initial_search_index : SearchIndex := ⟨false, [], []⟩

/-- Model of `SearchIndex::begin_write` (search.rs, lines 138–145): create a
writer only when none exists (a fresh writer has no pending operations);
a no-op when a writer is already held. -/
def begin_write (si : SearchIndex) : SearchIndex :=
  if si.writer_open then si else { si with writer_open := true, pending := [] }

/-- Model of `SearchIndex::add_document` (search.rs, lines 151–171): fails
with `InvalidState` when no writer is held; otherwise buffers a
`delete_term(path)` followed by the addition of the new document. -/
def add_document (si : SearchIndex) (path : String) (title : Option String)
    (content : String) : Except IndexError SearchIndex :=
  if si.writer_open then
    .ok { si with pending := si.pending ++ [.delTerm path, .addDoc ⟨path, title, content⟩] }
  else
    .error (.invalidState "Writer not initialized")

/-- Model of `SearchIndex::remove_document` (search.rs, lines 174–183). -/
def remove_document (si : SearchIndex) (path : String) : Except IndexError SearchIndex :=
  if si.writer_open then
    .ok { si with pending := si.pending ++ [.delTerm path] }
  else
    .error (.invalidState "Writer not initialized")

/-- Apply buffered writer operations in order: a delete removes every
document whose path matches the term; an add appends. -/
def apply_ops (docs : List SearchDoc) : List SIOp → List SearchDoc
  | [] => docs
  | .delTerm p :: rest => apply_ops (docs.filter (fun d => d.path != p)) rest
  | .addDoc d :: rest => apply_ops (docs ++ [d]) rest

/-- Model of `SearchIndex::commit` (search.rs, lines 186–192): when a writer
is held, make the pending operations visible and reload the reader.  The
writer is kept (`self.writer` remains `Some`); a no-op without a writer. -/
def commit (si : SearchIndex) : SearchIndex :=
  if si.writer_open then
    { si with committed := apply_ops si.committed si.pending, pending := [] }
  else si

/-- Model of `SearchIndex::rollback` (search.rs, lines 195–200): discard the
pending operations; the writer is kept; a no-op without a writer. -/
def rollback (si : SearchIndex) : SearchIndex :=
  if si.writer_open then { si with pending := [] } else si

/- ───────────────────── Index orchestrator (lib.rs) ─────────────────────── -/

/-- One managed file as seen by the walk, at the point where `build_full`
consumes it: the relative path, the filesystem mtime (`entry.modified`, absent
when the OS reports none), the size, whether `std::fs::read_to_string`
succeeds, and the outcome of front-matter extraction and of the plain-text
projection on its content (`fm_title` is `fm.get_str("title")` etc., all
absent and `fm_tags = []` for a file without front matter; `doc_title` is
`Document::title()`). -/
structure DiskFile where
  rel_path : String
  modified : Option Timestamp
  size : Int
  read_ok : Bool
  fm_title : Option String
  fm_tags : List String
  fm_date : Option String
  fm_area : Option String
  doc_title : Option String
  plain_text : String
deriving DecidableEq

/-- Rust `BuildStats` (lib.rs, lines 44–56) without the wall-clock
`duration_ms`. -/
structure BuildStats where
  files_scanned : Nat
  markdown_indexed : Nat
  metadata_updated : Nat
  stale_removed : Nat
deriving DecidableEq

/-- The state owned by `Index`: the SQLite store and the Tantivy index. -/
structure IndexState where
  metadata : DB
  search : SearchIndex
deriving DecidableEq

/-- Markdown detection in `Index::index_file` (lib.rs, line 225):
`rel_path.ends_with(".md") || rel_path.ends_with(".markdown")`, as a suffix
check on the character sequence. -/
def is_markdown_path (p : String) : Bool :=
  List.isSuffixOf ".md".toList p.toList || List.isSuffixOf ".markdown".toList p.toList

/-- Model of `Index::index_file` (lib.rs, lines 203–276).  A Markdown file
that reads successfully is parsed, its metadata extracted (title falling back
to `Document::title()`), both stores are updated and the search document is
added; a Markdown file that fails to read, and any non-Markdown file, get a
metadata-only row with `indexed = false`.  `metadata_updated` is always
incremented; `markdown_indexed` only for parsed Markdown. -/
def index_file (c : Codec) (now : Timestamp) (st : IndexState) (stats : BuildStats)
    (f : DiskFile) : Except IndexError (IndexState × BuildStats) :=
  let file_entry : FileEntry :=
    { path := f.rel_path, mtime := f.modified.getD now, size := f.size,
      content_hash := none, indexed := false }
  if is_markdown_path f.rel_path then
    if f.read_ok then
      let title := match f.fm_title with | some t => some t | none => f.doc_title
      let file_meta : FileMetadata := ⟨title, f.fm_tags, f.fm_date, f.fm_area⟩
      let db := upsert_file c st.metadata { file_entry with indexed := true }
      let db := upsert_metadata db f.rel_path file_meta
      match add_document st.search f.rel_path title f.plain_text with
      | .ok si =>
        .ok (⟨db, si⟩,
             { stats with markdown_indexed := stats.markdown_indexed + 1,
                          metadata_updated := stats.metadata_updated + 1 })
      | .error e => .error e
    else
      .ok (⟨upsert_file c st.metadata file_entry, st.search⟩,
           { stats with metadata_updated := stats.metadata_updated + 1 })
  else
    .ok (⟨upsert_file c st.metadata file_entry, st.search⟩,
         { stats with metadata_updated := stats.metadata_updated + 1 })

/-- The per-file step of the `build_full` loop. -/
def build_step (c : Codec) (now : Timestamp) (acc : IndexState × BuildStats)
    (f : DiskFile) : Except IndexError (IndexState × BuildStats) :=
  index_file c now acc.1 acc.2 f

/-- Model of `Index::build_full` (lib.rs, lines 93–132), from the point where
the walked entries have been filtered to managed files: open the search
writer, index every file, prune stale metadata rows with the current path
set, commit the search index.  The two `?` operators are written as explicit
matches. -/
def build_full (c : Codec) (now : Timestamp) (st : IndexState)
    (managed_files : List DiskFile) : Except IndexError (IndexState × BuildStats) :=
  let stats0 : BuildStats := ⟨managed_files.length, 0, 0, 0⟩
  let si0 := begin_write st.search
  let current_paths := managed_files.map (fun f => f.rel_path)
  match managed_files.foldlM (build_step c now) (⟨st.metadata, si0⟩, stats0) with
  | .error e => .error e
  | .ok r =>
    match remove_stale_files r.1.metadata current_paths with
    | .error e => .error e
    | .ok pruned =>
      .ok (⟨pruned.1, commit r.1.search⟩, { r.2 with stale_removed := pruned.2 })

/-- Truncation of a millisecond duration to whole seconds, toward zero
(chrono `TimeDelta::num_seconds`). -/
def num_seconds_ms (d : Int) : Int :=
  if 0 ≤ d then (d.toNat / 1000 : Nat) else -((d.natAbs / 1000 : Nat) : Int)

/-- The freshness check of `Index::update_incremental` (lib.rs, lines
170–177): re-index when the truncated whole-second difference exceeds 1,
when the on-disk mtime is missing, or when no stored entry exists. -/
def needs_update (entry_modified : Option Timestamp) (existing : Option FileEntry) : Bool :=
  match entry_modified, existing with
  | some em, some ex => (num_seconds_ms (em - ex.mtime)).natAbs > 1
  | none, _ => true
  | _, none => true

/-- The per-file step of the `update_incremental` loop: look up the stored
entry, re-index when `needs_update` holds, skip otherwise. -/
def inc_step (c : Codec) (now : Timestamp) (acc : IndexState × BuildStats)
    (f : DiskFile) : Except IndexError (IndexState × BuildStats) :=
  match get_file c now acc.1.metadata f.rel_path with
  | .error e => .error e
  | .ok existing =>
    if needs_update f.modified existing then index_file c now acc.1 acc.2 f
    else .ok acc

/-- Model of `Index::update_incremental` (lib.rs, lines 137–192): like
`build_full`, but each file is re-indexed only when `needs_update` holds for
its stored entry; stale pruning and the commit run unconditionally. -/
def update_incremental (c : Codec) (now : Timestamp) (st : IndexState)
    (managed_files : List DiskFile) : Except IndexError (IndexState × BuildStats) :=
  let stats0 : BuildStats := ⟨managed_files.length, 0, 0, 0⟩
  let si0 := begin_write st.search
  let current_paths := managed_files.map (fun f => f.rel_path)
  match managed_files.foldlM (inc_step c now) (⟨st.metadata, si0⟩, stats0) with
  | .error e => .error e
  | .ok r =>
    match remove_stale_files r.1.metadata current_paths with
    | .error e => .error e
    | .ok pruned =>
      .ok (⟨pruned.1, commit r.1.search⟩, { r.2 with stale_removed := pruned.2 })

/- ───────────────────── Concrete instances used by witnesses ────────────── -/

/-- A concrete filesystem for witnesses: every path exists and canonicalizes
to itself (no symlinks). -/
def fs_demo : FS := ⟨fun l => some l, fun _ => true⟩

/-- A concrete codec for witnesses: timestamps serialize to `ts:<n>`; only
`ts:0` parses back; tag JSON never parses. -/
def codec_demo : Codec :=
  ⟨fun t => "ts:" ++ toString t,
   fun s => if s = "ts:0" then some 0 else none,
   fun _ => none⟩

/-- A store holding one `files` row and its `metadata` row for `a.md`. -/
def db_cascade : DB :=
  upsert_metadata (upsert_file codec_demo ⟨[], []⟩ ⟨"a.md", 0, 10, none, true⟩)
    "a.md" ⟨some "T", ["x"], none, none⟩

/-- A store holding a single `files` row for `a.md`. -/
def db_one : DB := ⟨[⟨"a.md", "ts:0", 1, none, true⟩], []⟩

/-- A managed Markdown file `a.md` as walked from disk (mtime 0 ms). -/
def file_a : DiskFile := ⟨"a.md", some 0, 1, true, some "A", [], none, none, none, "alpha"⟩

/-- A managed Markdown file `b.md` as walked from disk (mtime 0 ms). -/
def file_b : DiskFile := ⟨"b.md", some 0, 1, true, some "B", [], none, none, none, "beta"⟩

/-- The file `a.md` with an on-disk mtime of 1500 ms. -/
def file_a_1500 : DiskFile := ⟨"a.md", some 1500, 1, true, some "A", [], none, none, none, "alpha"⟩

/-- An index with empty stores and no writer. -/
def empty_index : IndexState := ⟨⟨[], []⟩, initial_search_index⟩

/-- The index state after a first full build over `a.md` and `b.md`. -/
def first_build : IndexState :=
  match build_full codec_demo 0 empty_index [file_a, file_b] with
  | .ok (st, _) => st
  | .error _ => empty_index

/-- The index state whose store already tracks `a.md` with stored mtime
`ts:0`, writer closed (as after opening the index afresh). -/
def st_c7 : IndexState := ⟨db_one, initial_search_index⟩

/-- Front matter whose `tags` value is a sequence of strings. -/
def fm_ok : FrontMatter := ⟨.mapV [("tags", .seqV [.strV "a", .strV "b"])]⟩

/-- Front matter whose `tags` sequence contains a non-string element. -/
def fm_bad : FrontMatter := ⟨.mapV [("tags", .seqV [.strV "a", .numV 3])]⟩

end Fracta

namespace Fracta

theorem is_ignored_loop_iff (rs : IgnoreRules) (d : Bool) :
    ∀ (l acc : List String),
      is_ignored_loop rs acc d l = true ↔
        ∃ k, k + 1 ≤ l.length ∧
          matches_rules rs (acc ++ l.take (k + 1))
            (if k + 1 = l.length then d else true) = true := by
  intro l
  induction l with
  | nil => intro acc; simp [is_ignored_loop]
  | cons c rest ih =>
    intro acc
    have hterm : ((if (0 : Nat) + 1 = (c :: rest).length then d else true) : Bool)
        = (if rest.isEmpty then d else true) := by
      cases rest <;> simp
    have htake : (c :: rest).take (0 + 1) = [c] := rfl
    rw [is_ignored_loop]
    cases hm : matches_rules rs (acc ++ [c]) (if rest.isEmpty then d else true) with
    | true =>
      simp only [if_true]
      constructor
      · intro _
        exact ⟨0, by simp, by rw [htake, hterm]; exact hm⟩
      · intro _; trivial
    | false =>
      simp only [if_false, Bool.false_eq_true]
      rw [ih (acc ++ [c])]
      constructor
      · rintro ⟨k, hk, hmk⟩
        refine ⟨k + 1, by simpa using hk, ?_⟩
        have ht : (c :: rest).take (k + 1 + 1) = c :: rest.take (k + 1) := rfl
        rw [ht]
        have ha : acc ++ c :: rest.take (k + 1) = (acc ++ [c]) ++ rest.take (k + 1) := by
          simp
        rw [ha]
        have hc : ((if k + 1 + 1 = (c :: rest).length then d else true) : Bool)
            = (if k + 1 = rest.length then d else true) := by
          simp only [List.length_cons]
          by_cases h : k + 1 = rest.length
          · rw [if_pos h, if_pos (by omega)]
          · rw [if_neg h, if_neg (by omega)]
        rw [hc]
        exact hmk
      · rintro ⟨k, hk, hmk⟩
        cases k with
        | zero =>
          exfalso
          rw [htake, hterm] at hmk
          rw [hm] at hmk
          exact Bool.false_ne_true hmk
        | succ j =>
          refine ⟨j, by simp at hk; omega, ?_⟩
          have ht : (c :: rest).take (j + 1 + 1) = c :: rest.take (j + 1) := rfl
          rw [ht] at hmk
          have ha : acc ++ c :: rest.take (j + 1) = (acc ++ [c]) ++ rest.take (j + 1) := by
            simp
          rw [ha] at hmk
          have hc : ((if j + 1 + 1 = (c :: rest).length then d else true) : Bool)
              = (if j + 1 = rest.length then d else true) := by
            simp only [List.length_cons]
            by_cases h : j + 1 = rest.length
            · rw [if_pos h, if_pos (by omega)]
            · rw [if_neg h, if_neg (by omega)]
          rw [hc] at hmk
          exact hmk

/-- C6 main. -/
theorem is_ignored_iff_prefix (rs : IgnoreRules) (p : List String) (d : Bool) :
    is_ignored rs p d = true ↔
      ∃ k, k + 1 ≤ p.length ∧
        matches_rules rs (p.take (k + 1)) (if k + 1 = p.length then d else true) = true := by
  simpa using is_ignored_loop_iff rs d p []

end Fracta

namespace Fracta

/-- C2 main. -/
theorem contains_implies_within_root :
    (∀ (fs : FS) (root p r : List String),
        resolve_and_check fs root p = some r →
          (∃ croot, fs.canonicalize root = some croot ∧ croot.isPrefixOf r = true)
          ∧ (∀ cp, fs.canonicalize p = some cp → r = cp))
    ∧ (∀ (fs : FS) (root p croot cp : List String),
        fs.canonicalize root = some croot →
        fs.canonicalize p = some cp →
        croot.isPrefixOf cp = false →
        location_contains fs root p = false) := by
  constructor
  · intro fs root p r h
    unfold resolve_and_check at h
    split at h
    · cases h
    next croot hroot =>
      split at h
      next cp hp =>
        split at h
        next hpre =>
          cases h
          exact ⟨⟨croot, hroot, hpre⟩, fun cp' hcp' => by
            rw [hp] at hcp'; cases hcp'; rfl⟩
        next hpre => cases h
      next hp =>
        split at h
        · cases h
        next existing pending hw =>
          split at h
          · cases h
          next resolved_base hex =>
            split at h
            · cases h
            next resolved hap =>
              split at h
              next hpre =>
                cases h
                refine ⟨⟨croot, hroot, hpre⟩, fun cp' hcp' => ?_⟩
                rw [hp] at hcp'; cases hcp'
              next hpre => cases h
  · intro fs root p croot cp hroot hp hpre
    unfold location_contains resolve_and_check
    rw [hroot, hp]
    simp [hpre]

/-- C2 witness. -/
theorem contains_implies_within_root_witness :
    ((∃ croot, fs_demo.canonicalize ["home"] = some croot
        ∧ croot.isPrefixOf ["home", "a"] = true)
      ∧ (∀ cp, fs_demo.canonicalize ["home", "a"] = some cp → ["home", "a"] = cp))
    ∧ location_contains fs_demo ["home"] ["etc"] = false :=
  ⟨contains_implies_within_root.1 fs_demo ["home"] ["home", "a"] ["home", "a"] rfl,
   contains_implies_within_root.2 fs_demo ["home"] ["etc"] ["home"] ["etc"] rfl rfl rfl⟩

/-- Helper: a successful collect means every element was a string. -/
theorem collect_str_eq_map : ∀ (items : List Yaml) (l : List String),
    collect_str items = some l → items = l.map Yaml.strV := by
  intro items
  induction items with
  | nil => intro l h; simp [collect_str] at h; subst h; rfl
  | cons v rest ih =>
    intro l h
    rw [collect_str] at h
    cases hv : yaml_as_str v with
    | none => rw [hv] at h; cases h
    | some s =>
      rw [hv] at h
      cases hr : collect_str rest with
      | none => rw [hr] at h; cases h
      | some l' =>
        rw [hr] at h
        simp only [Option.some.injEq] at h
        subst h
        have hveq : v = Yaml.strV s := by
          cases v <;> simp [yaml_as_str] at hv
          rw [hv]
        rw [hveq, ih l' hr]
        rfl

/-- Helper: one non-string element makes the collect fail. -/
theorem collect_str_none_of_mem : ∀ (items : List Yaml) (v : Yaml),
    v ∈ items → yaml_as_str v = none → collect_str items = none := by
  intro items
  induction items with
  | nil => intro v hv; cases hv
  | cons w rest ih =>
    intro v hv hnone
    rw [collect_str]
    rcases List.mem_cons.mp hv with h | h
    · subst h; rw [hnone]
    · cases hw : yaml_as_str w with
      | none => rfl
      | some s => rw [ih v h hnone]

/-- C10 main. -/
theorem get_string_list_requires_all_strings :
    (∀ (fm : FrontMatter) (key : String) (l : List String),
        get_string_list fm key = some l →
          ∃ items, yaml_get fm.fields key = some (.seqV items) ∧ items = l.map Yaml.strV)
    ∧ (∀ (fm : FrontMatter) (items : List Yaml),
        yaml_get fm.fields "tags" = some (.seqV items) →
        (∃ v, v ∈ items ∧ yaml_as_str v = none) →
        extract_tags fm = []) := by
  constructor
  · intro fm key l h
    unfold get_string_list at h
    cases hg : yaml_get fm.fields key with
    | none => rw [hg] at h; cases h
    | some v =>
      rw [hg] at h
      simp only [Option.some_bind] at h
      cases hs : yaml_as_sequence v with
      | none => rw [hs] at h; cases h
      | some items =>
        rw [hs] at h
        simp only [Option.some_bind] at h
        have hv : v = Yaml.seqV items := by
          cases v <;> simp [yaml_as_sequence] at hs
          rw [hs]
        exact ⟨items, by rw [hv], collect_str_eq_map items l h⟩
  · intro fm items hg ⟨v, hv, hnone⟩
    unfold extract_tags get_string_list
    rw [hg]
    simp only [Option.some_bind, yaml_as_sequence]
    rw [collect_str_none_of_mem items v hv hnone]
    rfl

/-- C10 witness. -/
theorem get_string_list_requires_all_strings_witness :
    (∃ items, yaml_get fm_ok.fields "tags" = some (.seqV items)
        ∧ items = (["a", "b"] : List String).map Yaml.strV)
    ∧ extract_tags fm_bad = [] :=
  ⟨get_string_list_requires_all_strings.1 fm_ok "tags" ["a", "b"] rfl,
   get_string_list_requires_all_strings.2 fm_bad [.strV "a", .numV 3] rfl
     ⟨.numV 3, by simp, rfl⟩⟩

/-- C4 counterexample. -/
theorem add_document_after_commit_succeeds :
    add_document (commit (begin_write initial_search_index)) "a.md" none "text"
      = .ok ⟨true, [.delTerm "a.md", .addDoc ⟨"a.md", none, "text"⟩], []⟩ := rfl

/-- C4 amended. -/
theorem writer_state_machine :
    (initial_search_index.writer_open = false)
    ∧ (∀ si, (begin_write si).writer_open = true)
    ∧ (∀ si, (commit si).writer_open = si.writer_open)
    ∧ (∀ si, (rollback si).writer_open = si.writer_open)
    ∧ (∀ si p t c, si.writer_open = false →
        add_document si p t c = .error (.invalidState "Writer not initialized"))
    ∧ (∀ si p t c, si.writer_open = true → ∃ si2, add_document si p t c = .ok si2)
    ∧ (∀ si p, si.writer_open = false →
        remove_document si p = .error (.invalidState "Writer not initialized"))
    ∧ (∀ si p, si.writer_open = true → ∃ si2, remove_document si p = .ok si2) := by
  refine ⟨rfl, ?_, ?_, ?_, ?_, ?_, ?_, ?_⟩
  · intro si; by_cases h : si.writer_open <;> simp [begin_write, h]
  · intro si; by_cases h : si.writer_open <;> simp [commit, h]
  · intro si; by_cases h : si.writer_open <;> simp [rollback, h]
  · intro si p t c h; simp [add_document, h]
  · intro si p t c h
    exact ⟨{ si with pending := si.pending ++ [.delTerm p, .addDoc ⟨p, t, c⟩] },
      by simp [add_document, h]⟩
  · intro si p h; simp [remove_document, h]
  · intro si p h
    exact ⟨{ si with pending := si.pending ++ [.delTerm p] },
      by simp [remove_document, h]⟩

/-- C4 witness. -/
theorem writer_state_machine_witness :
    add_document initial_search_index "a" none "c"
      = .error (.invalidState "Writer not initialized")
    ∧ ∃ si2, add_document (begin_write initial_search_index) "a" none "c" = .ok si2 :=
  ⟨writer_state_machine.2.2.2.2.1 initial_search_index "a" none "c" rfl,
   writer_state_machine.2.2.2.2.2.1 (begin_write initial_search_index) "a" none "c" rfl⟩

/-- C5 main. -/
theorem get_file_never_corrupted_error :
    (∀ (c : Codec) (now : Timestamp) (db : DB) (path : String),
        ∃ v, get_file c now db path = .ok v)
    ∧ get_file codec_demo 4242 ⟨[⟨"a.md", "not-a-timestamp", 10, none, true⟩], []⟩ "a.md"
        = .ok (some ⟨"a.md", 4242, 10, none, true⟩) :=
  ⟨fun _ _ _ _ => ⟨_, rfl⟩, rfl⟩

end Fracta

namespace Fracta

/-- C3 main. -/
theorem remove_file_leaves_metadata_row :
    ((remove_file db_cascade "a.md").1.files = []
      ∧ (remove_file db_cascade "a.md").2 = true
      ∧ get_metadata codec_demo (remove_file db_cascade "a.md").1 "a.md"
          = .ok (some ⟨some "T", [], none, none⟩))
    ∧ (∀ (db : DB) (p : String), (remove_file db p).1.metadata = db.metadata)
    ∧ (∀ (db : DB) (ps : List String),
        (remove_stale_files db ps).toOption.map (fun r => r.1.metadata)
          = (remove_stale_files db ps).toOption.map (fun _ => db.metadata)) := by
  refine ⟨⟨rfl, rfl, rfl⟩, fun db p => rfl, fun db ps => ?_⟩
  unfold remove_stale_files
  split
  · rfl
  · split <;> rfl

/-- Helper shared by C1 and C8: on a duplicate-free path list,
`remove_stale_files` keeps exactly the rows whose path is in the list and
returns the number of dropped rows (the empty list keeps nothing). -/
theorem remove_stale_files_nodup_eq (db : DB) (current_paths : List String)
    (h : current_paths.Nodup) :
    remove_stale_files db current_paths
      = .ok ({ files := db.files.filter (fun r => current_paths.contains r.path),
               metadata := db.metadata },
             (db.files.filter (fun r => !current_paths.contains r.path)).length) := by
  unfold remove_stale_files
  cases current_paths with
  | nil =>
    simp only [List.isEmpty_nil, if_true]
    have h1 : db.files.filter (fun r => ([] : List String).contains r.path) = [] := by
      induction db.files with
      | nil => rfl
      | cons r l ih => simp [ih]
    have h2 : db.files.filter (fun r => !([] : List String).contains r.path) = db.files := by
      induction db.files with
      | nil => rfl
      | cons r l ih => simp [ih]
    rw [h1, h2]
  | cons a l =>
    simp only [List.isEmpty_cons, if_false, Bool.false_eq_true]
    rw [if_pos h]

/-- C8 counterexample. -/
theorem remove_stale_files_duplicate_errors :
    remove_stale_files db_one ["b.md", "b.md"] = .error .sqliteConstraint := by
  unfold remove_stale_files
  simp [List.Nodup]

/-- C8 amended. -/
theorem remove_stale_files_set_difference (db : DB) (current_paths : List String)
    (h : current_paths.Nodup) :
    remove_stale_files db current_paths
      = .ok ({ files := db.files.filter (fun r => current_paths.contains r.path),
               metadata := db.metadata },
             (db.files.filter (fun r => !current_paths.contains r.path)).length) :=
  remove_stale_files_nodup_eq db current_paths h

/-- C8 witness. -/
theorem remove_stale_files_set_difference_witness :
    remove_stale_files db_one ["b.md"]
      = .ok ({ files := db_one.files.filter (fun r => (["b.md"] : List String).contains r.path),
               metadata := db_one.metadata },
             (db_one.files.filter (fun r => !(["b.md"] : List String).contains r.path)).length) :=
  remove_stale_files_set_difference db_one ["b.md"] (by simp)

/-- C9 main. -/
theorem search_by_metadata_bound_params_only :
    (∀ (area tag date_from date_to : Option String) (limit : Nat),
        (search_query area tag date_from date_to limit).sql
          = (search_query (area.map fun _ => "") (tag.map fun _ => "")
              (date_from.map fun _ => "") (date_to.map fun _ => "") 0).sql)
    ∧ (∀ (area tag date_from date_to : Option String) (limit : Nat),
        (search_query area tag date_from date_to limit).params
          = (area.toList.map SqlParam.strP)
            ++ (tag.toList.map (fun t => SqlParam.strP ("%\"" ++ t ++ "%")))
            ++ (date_from.toList.map SqlParam.strP)
            ++ (date_to.toList.map SqlParam.strP)
            ++ [SqlParam.intP limit])
    ∧ (∀ (db : DB) (q : String) (limit : Nat),
        search_by_metadata db (some q) none none none limit
          = .ok (run_search db (some q) none none none limit)) := by
  refine ⟨?_, ?_, fun db q limit => rfl⟩
  · intro area tag date_from date_to limit
    cases area <;> cases tag <;> cases date_from <;> cases date_to <;> rfl
  · intro area tag date_from date_to limit
    cases area <;> cases tag <;> cases date_from <;> cases date_to <;> rfl

end Fracta

namespace Fracta

/-- C1 counterexample. -/
theorem build_full_retains_stale_search_doc :
    (build_full codec_demo 0 first_build [file_b]).toOption.map
        (fun r => (r.2.stale_removed,
                   r.1.metadata.files.map (fun row => row.path),
                   r.1.search.committed.map (fun d => d.path)))
      = some (1, ["b.md"], ["a.md", "b.md"]) := by decide

/-- C7 counterexample. -/
theorem update_incremental_skips_subsecond_change :
    (1500 - 0 : Int).natAbs > 1000
    ∧ (update_incremental codec_demo 9999 st_c7 [file_a_1500]).toOption.map
        (fun r => (r.1.metadata.files, r.2.markdown_indexed))
      = some ([⟨"a.md", "ts:0", 1, none, true⟩], 0) :=
  ⟨by decide, by decide⟩

end Fracta

namespace Fracta

/-- Helper: bind of an ok value. -/
theorem except_bind_ok {ε α β : Type} (x : α) (f : α → Except ε β) :
    (Except.ok x >>= f : Except ε β) = f x := rfl

/-- Helper: updating the rows at one path does not change the row found at a
different path. -/
theorem find_map_update (l : List FileRow) (epath q : String) (row : FileRow)
    (hrow : row.path = epath) (hq : q ≠ epath) :
    (l.map (fun r => if r.path = epath then row else r)).find? (fun r => r.path = q)
      = l.find? (fun r => r.path = q) := by
  induction l with
  | nil => rfl
  | cons r rest ih =>
    simp only [List.map_cons]
    by_cases h : r.path = epath
    · rw [if_pos h]
      have h1 : ¬ (row.path = q) := by rw [hrow]; exact fun hh => hq hh.symm
      have h2 : ¬ (r.path = q) := by rw [h]; exact fun hh => hq hh.symm
      rw [List.find?_cons_of_neg _ (by simpa using h1),
        List.find?_cons_of_neg _ (by simpa using h2)]
      exact ih
    · rw [if_neg h]
      by_cases h2 : r.path = q
      · rw [List.find?_cons_of_pos _ (by simpa using h2),
          List.find?_cons_of_pos _ (by simpa using h2)]
      · rw [List.find?_cons_of_neg _ (by simpa using h2),
          List.find?_cons_of_neg _ (by simpa using h2)]
        exact ih

/-- Helper: appending a row with a different path does not change the row
found at a path. -/
theorem find_append_none (l : List FileRow) (row : FileRow) (q : String)
    (hq : ¬ (row.path = q)) :
    (l ++ [row]).find? (fun r => r.path = q) = l.find? (fun r => r.path = q) := by
  induction l with
  | nil =>
    simp only [List.nil_append]
    rw [List.find?_cons_of_neg _ (by simpa using hq)]
  | cons r rest ih =>
    by_cases h : r.path = q
    · rw [List.cons_append, List.find?_cons_of_pos _ (by simpa using h),
        List.find?_cons_of_pos _ (by simpa using h)]
    · rw [List.cons_append, List.find?_cons_of_neg _ (by simpa using h),
        List.find?_cons_of_neg _ (by simpa using h)]
      exact ih

/-- Helper: `upsert_file` leaves the row at any other path unchanged. -/
theorem upsert_file_row_at_ne (c : Codec) (db : DB) (e : FileEntry) (q : String)
    (hq : q ≠ e.path) :
    row_at (upsert_file c db e) q = row_at db q := by
  unfold upsert_file row_at
  by_cases h : db.files.any (fun r => r.path = e.path)
  · simp only [h, if_true]
    exact find_map_update db.files e.path q _ rfl hq
  · simp only [h, if_false]
    exact find_append_none db.files _ q (fun hh => hq hh.symm)

/-- Helper: after `upsert_file` a row at the inserted path exists. -/
theorem upsert_file_exists_self (c : Codec) (db : DB) (e : FileEntry) :
    ∃ r ∈ (upsert_file c db e).files, r.path = e.path := by
  unfold upsert_file
  by_cases h : db.files.any (fun r => r.path = e.path)
  · simp only [h, if_true]
    obtain ⟨r, hr, hp⟩ := List.any_eq_true.mp h
    refine ⟨_, List.mem_map_of_mem _ hr, ?_⟩
    rw [if_pos (by simpa using hp)]
  · simp only [h, if_false]
    exact ⟨_, List.mem_append_right _ (List.mem_singleton.mpr rfl), rfl⟩

/-- Helper: `upsert_file` preserves the existence of a row at any path. -/
theorem upsert_file_exists_preserve (c : Codec) (db : DB) (e : FileEntry) (q : String) :
    (∃ r ∈ db.files, r.path = q) → ∃ r ∈ (upsert_file c db e).files, r.path = q := by
  rintro ⟨r, hr, hp⟩
  unfold upsert_file
  by_cases h : db.files.any (fun r => r.path = e.path)
  · simp only [h, if_true]
    by_cases he : r.path = e.path
    · exact ⟨_, List.mem_map_of_mem _ hr, by rw [if_pos he]; exact he.symm.trans hp⟩
    · exact ⟨_, List.mem_map_of_mem _ hr, by rw [if_neg he]; exact hp⟩
  · simp only [h, if_false]
    exact ⟨r, List.mem_append_left _ hr, hp⟩

/-- Helper: replacing the rows at a path filtered out on both sides leaves a
path-based filter unchanged. -/
theorem filter_map_update (l : List FileRow) (epath : String) (row : FileRow)
    (p : String → Bool) (hrow : row.path = epath) (hp : p epath = false) :
    (l.map (fun r => if r.path = epath then row else r)).filter (fun r => p r.path)
      = l.filter (fun r => p r.path) := by
  induction l with
  | nil => rfl
  | cons r rest ih =>
    simp only [List.map_cons]
    by_cases h : r.path = epath
    · rw [if_pos h]
      rw [List.filter_cons_of_neg (by simp [hrow, hp]),
        List.filter_cons_of_neg (by simp [h, hp])]
      exact ih
    · rw [if_neg h]
      by_cases h2 : p r.path = true
      · rw [List.filter_cons_of_pos (by simpa using h2),
          List.filter_cons_of_pos (by simpa using h2), ih]
      · rw [List.filter_cons_of_neg (by simpa using h2),
          List.filter_cons_of_neg (by simpa using h2)]
        exact ih

/-- Helper: appending one filtered-out row leaves a filter unchanged. -/
theorem filter_append_one (l : List FileRow) (row : FileRow) (p : String → Bool)
    (hp : p row.path = false) :
    (l ++ [row]).filter (fun r => p r.path) = l.filter (fun r => p r.path) := by
  rw [List.filter_append]
  simp [hp]

/-- Helper: upserting a live path does not change the set of stale rows. -/
theorem upsert_file_filter_stale (c : Codec) (db : DB) (e : FileEntry)
    (paths : List String) (hmem : paths.contains e.path = true) :
    (upsert_file c db e).files.filter (fun r => !paths.contains r.path)
      = db.files.filter (fun r => !paths.contains r.path) := by
  unfold upsert_file
  by_cases h : db.files.any (fun r => r.path = e.path)
  · simp only [h, if_true]
    exact filter_map_update _ _ _ (fun s => !paths.contains s) rfl (by simpa using hmem)
  · simp only [h, if_false]
    exact filter_append_one _ _ (fun s => !paths.contains s) (by simpa using hmem)

/-- Helper: `upsert_metadata` does not touch the files table. -/
theorem upsert_metadata_files (db : DB) (p : String) (m : FileMetadata) :
    (upsert_metadata db p m).files = db.files := by
  unfold upsert_metadata
  split <;> rfl

end Fracta

namespace Fracta

/-- Helper: `begin_write` always leaves the writer open. -/
theorem begin_write_writer_open (si : SearchIndex) :
    (begin_write si).writer_open = true := by
  unfold begin_write
  split <;> simp_all

/-- Helper: `begin_write` does not change the committed documents. -/
theorem begin_write_committed (si : SearchIndex) :
    (begin_write si).committed = si.committed := by
  unfold begin_write
  split <;> rfl

/-- Helper: when nothing was pending, `begin_write` leaves nothing pending. -/
theorem begin_write_pending (si : SearchIndex) (h : si.pending = []) :
    (begin_write si).pending = [] := by
  unfold begin_write
  split <;> simp [h]

/-- Helper: committing with an open writer applies the pending operations. -/
theorem commit_committed_open (si : SearchIndex) (h : si.writer_open = true) :
    (commit si).committed = apply_ops si.committed si.pending := by
  unfold commit
  rw [if_pos h]

/-- Helper: a committed document whose path is outside the set every pending
operation targets survives `apply_ops`. -/
theorem apply_ops_retains (paths : List String) :
    ∀ (ops : List SIOp) (docs : List SearchDoc) (d : SearchDoc),
      (∀ op ∈ ops, paths.contains (op_path op) = true) →
      d ∈ docs → paths.contains d.path = false →
      d ∈ apply_ops docs ops := by
  intro ops
  induction ops with
  | nil =>
    intro docs d _ hd _
    simpa [apply_ops] using hd
  | cons op rest ih =>
    intro docs d hops hd hdp
    cases op with
    | delTerm p =>
      rw [apply_ops]
      refine ih _ d (fun o ho => hops o (List.mem_cons_of_mem _ ho)) ?_ hdp
      refine List.mem_filter.mpr ⟨hd, ?_⟩
      have hp := hops (.delTerm p) (List.mem_cons_self _ _)
      simp only [op_path] at hp
      have hne : d.path ≠ p := by
        intro hh
        rw [hh] at hdp
        rw [hdp] at hp
        cases hp
      simpa [bne] using hne
    | addDoc d' =>
      rw [apply_ops]
      exact ih _ d (fun o ho => hops o (List.mem_cons_of_mem _ ho))
        (List.mem_append_left _ hd) hdp

/-- Helper: full characterization of one `index_file` step, assuming the
search writer is open. -/
theorem index_file_ok (c : Codec) (now : Timestamp) (st : IndexState)
    (stats : BuildStats) (f : DiskFile) (hw : st.search.writer_open = true) :
    ∃ db1 si1 stats1,
      index_file c now st stats f = .ok (⟨db1, si1⟩, stats1)
      ∧ si1.writer_open = true
      ∧ si1.committed = st.search.committed
      ∧ (∃ ops, si1.pending = st.search.pending ++ ops
          ∧ ∀ op ∈ ops, op_path op = f.rel_path)
      ∧ (∀ q, q ≠ f.rel_path → row_at db1 q = row_at st.metadata q)
      ∧ (∃ r ∈ db1.files, r.path = f.rel_path)
      ∧ (∀ q, (∃ r ∈ st.metadata.files, r.path = q) → ∃ r ∈ db1.files, r.path = q)
      ∧ (∀ (paths : List String), paths.contains f.rel_path = true →
          db1.files.filter (fun r => !paths.contains r.path)
            = st.metadata.files.filter (fun r => !paths.contains r.path)) := by
  unfold index_file
  dsimp only
  by_cases hmd : is_markdown_path f.rel_path = true
  · rw [if_pos hmd]
    by_cases hro : f.read_ok = true
    · rw [if_pos hro]
      rw [show add_document st.search f.rel_path
            (match f.fm_title with | some t => some t | none => f.doc_title) f.plain_text
          = .ok { st.search with
              pending := st.search.pending
                ++ [.delTerm f.rel_path,
                    .addDoc ⟨f.rel_path,
                      (match f.fm_title with | some t => some t | none => f.doc_title),
                      f.plain_text⟩] } from by
        unfold add_document; rw [if_pos hw]]
      refine ⟨_, _, _, rfl, hw, rfl, ?_, ?_, ?_, ?_, ?_⟩
      · refine ⟨_, rfl, ?_⟩
        intro op hop
        rcases List.mem_cons.mp hop with h | h
        · rw [h]; rfl
        · rcases List.mem_cons.mp h with h2 | h2
          · rw [h2]; rfl
          · cases h2
      · intro q hq
        show row_at (upsert_metadata (upsert_file c st.metadata _) _ _) q = _
        unfold row_at
        rw [upsert_metadata_files]
        exact upsert_file_row_at_ne c st.metadata _ q hq
      · show ∃ r ∈ (upsert_metadata (upsert_file c st.metadata _) _ _).files, _
        rw [upsert_metadata_files]
        exact upsert_file_exists_self c st.metadata _
      · intro q hex
        show ∃ r ∈ (upsert_metadata (upsert_file c st.metadata _) _ _).files, _
        rw [upsert_metadata_files]
        exact upsert_file_exists_preserve c st.metadata _ q hex
      · intro paths hmem
        show (upsert_metadata (upsert_file c st.metadata _) _ _).files.filter _ = _
        rw [upsert_metadata_files]
        exact upsert_file_filter_stale c st.metadata _ paths hmem
    · rw [if_neg hro]
      refine ⟨_, _, _, rfl, hw, rfl, ⟨[], by simp, by simp⟩, ?_, ?_, ?_, ?_⟩
      · intro q hq
        exact upsert_file_row_at_ne c st.metadata _ q hq
      · exact upsert_file_exists_self c st.metadata _
      · intro q hex
        exact upsert_file_exists_preserve c st.metadata _ q hex
      · intro paths hmem
        exact upsert_file_filter_stale c st.metadata _ paths hmem
  · rw [if_neg hmd]
    refine ⟨_, _, _, rfl, hw, rfl, ⟨[], by simp, by simp⟩, ?_, ?_, ?_, ?_⟩
    · intro q hq
      exact upsert_file_row_at_ne c st.metadata _ q hq
    · exact upsert_file_exists_self c st.metadata _
    · intro q hex
      exact upsert_file_exists_preserve c st.metadata _ q hex
    · intro paths hmem
      exact upsert_file_filter_stale c st.metadata _ paths hmem

end Fracta

namespace Fracta

/-- Helper: full characterization of the `build_full` indexing loop. -/
theorem build_fold_ok (c : Codec) (now : Timestamp) (paths : List String) :
    ∀ (files : List DiskFile) (st : IndexState) (stats : BuildStats),
      st.search.writer_open = true →
      (∀ f ∈ files, paths.contains f.rel_path = true) →
      ∃ stF statsF,
        files.foldlM (build_step c now) ((st, stats) : IndexState × BuildStats)
          = .ok (stF, statsF)
        ∧ stF.search.writer_open = true
        ∧ stF.search.committed = st.search.committed
        ∧ (∃ ops, stF.search.pending = st.search.pending ++ ops
            ∧ ∀ op ∈ ops, paths.contains (op_path op) = true)
        ∧ (∀ f ∈ files, ∃ r ∈ stF.metadata.files, r.path = f.rel_path)
        ∧ (∀ q, (∃ r ∈ st.metadata.files, r.path = q) → ∃ r ∈ stF.metadata.files, r.path = q)
        ∧ stF.metadata.files.filter (fun r => !paths.contains r.path)
            = st.metadata.files.filter (fun r => !paths.contains r.path)
        ∧ (∀ q, (∀ f ∈ files, f.rel_path ≠ q) → row_at stF.metadata q = row_at st.metadata q) := by
  intro files
  induction files with
  | nil =>
    intro st stats hw _
    refine ⟨st, stats, rfl, hw, rfl, ⟨[], by simp, by simp⟩, by simp, fun q h => h, rfl,
      fun q _ => rfl⟩
  | cons g rest ih =>
    intro st stats hw hall
    have hg : paths.contains g.rel_path = true := hall g (List.mem_cons_self _ _)
    obtain ⟨db1, si1, stats1, hstep, hw1, hcom1, ⟨ops1, hpend1, hops1⟩, hrow1, hself1,
      hmono1, hfilter1⟩ := index_file_ok c now st stats g hw
    obtain ⟨stF, statsF, hfold, hwF, hcomF, ⟨ops2, hpendF, hops2⟩, hpresF, hmonoF,
      hfilterF, hrowF⟩ := ih ⟨db1, si1⟩ stats1 hw1 (fun f hf => hall f (List.mem_cons_of_mem _ hf))
    refine ⟨stF, statsF, ?_, hwF, by rw [hcomF]; exact hcom1, ?_, ?_, ?_, ?_, ?_⟩
    · rw [List.foldlM_cons]
      show (build_step c now (st, stats) g >>= fun b => rest.foldlM (build_step c now) b)
        = .ok (stF, statsF)
      rw [show build_step c now (st, stats) g = .ok (⟨db1, si1⟩, stats1) from hstep,
        except_bind_ok]
      exact hfold
    · refine ⟨ops1 ++ ops2, ?_, ?_⟩
      · rw [hpendF, hpend1, List.append_assoc]
      · intro op hop
        rcases List.mem_append.mp hop with h | h
        · rw [hops1 op h]; exact hg
        · exact hops2 op h
    · intro f hf
      rcases List.mem_cons.mp hf with h | h
      · subst h
        exact hmonoF f.rel_path hself1
      · exact hpresF f h
    · intro q hex
      exact hmonoF q (hmono1 q hex)
    · rw [hfilterF]
      exact hfilter1 paths hg
    · intro q hq
      rw [hrowF q (fun f hf => hq f (List.mem_cons_of_mem _ hf))]
      exact hrow1 q (fun hh => hq g (List.mem_cons_self _ _) hh.symm)

end Fracta

namespace Fracta

/-- C1 amended. -/
theorem build_full_prunes_metadata_only (c : Codec) (now : Timestamp)
    (st : IndexState) (files : List DiskFile) (st' : IndexState) (s' : BuildStats)
    (hnd : (files.map (fun f => f.rel_path)).Nodup)
    (hpend : st.search.pending = [])
    (hb : build_full c now st files = .ok (st', s')) :
    (∀ r ∈ st'.metadata.files, r.path ∈ files.map (fun f => f.rel_path))
    ∧ (∀ f ∈ files, ∃ r ∈ st'.metadata.files, r.path = f.rel_path)
    ∧ s'.stale_removed
        = (st.metadata.files.filter
            (fun r => !(files.map (fun f => f.rel_path)).contains r.path)).length
    ∧ (∀ d ∈ st.search.committed, d.path ∉ files.map (fun f => f.rel_path) →
        d ∈ st'.search.committed) := by
  obtain ⟨stF, statsF, hfold, hwF, hcomF, ⟨ops, hpendF, hops⟩, hpres, hmono, hfilter, _⟩ :=
    build_fold_ok c now (files.map (fun f => f.rel_path)) files
      ⟨st.metadata, begin_write st.search⟩ ⟨files.length, 0, 0, 0⟩
      (begin_write_writer_open st.search)
      (fun f hf => by simpa using List.mem_map_of_mem (fun f => f.rel_path) hf)
  unfold build_full at hb
  dsimp only at hb
  rw [hfold] at hb
  dsimp only at hb
  rw [remove_stale_files_nodup_eq stF.metadata _ hnd] at hb
  dsimp only at hb
  cases hb
  refine ⟨?_, ?_, ?_, ?_⟩
  · intro r hr
    have h := (List.mem_filter.mp hr).2
    simpa using h
  · intro f hf
    obtain ⟨r, hr, hp⟩ := hpres f hf
    refine ⟨r, List.mem_filter.mpr ⟨hr, ?_⟩, hp⟩
    rw [hp]
    simpa using List.mem_map_of_mem (fun f => f.rel_path) hf
  · show (stF.metadata.files.filter _).length = _
    rw [hfilter]
  · intro d hd hdp
    show d ∈ (commit stF.search).committed
    rw [commit_committed_open stF.search hwF]
    have hcom : stF.search.committed = st.search.committed := by
      rw [hcomF]; exact begin_write_committed st.search
    have hpend2 : stF.search.pending = ops := by
      rw [hpendF, begin_write_pending st.search hpend, List.nil_append]
    rw [hcom, hpend2]
    refine apply_ops_retains (files.map (fun f => f.rel_path)) ops
      st.search.committed d hops hd ?_
    simpa using hdp

end Fracta

namespace Fracta

/-- C1 witness. -/
theorem build_full_prunes_metadata_only_witness :
    (⟨1, 1, 1, 1⟩ : BuildStats).stale_removed
      = (first_build.metadata.files.filter
          (fun r => !([file_b].map (fun f => f.rel_path)).contains r.path)).length :=
  (build_full_prunes_metadata_only codec_demo 0 first_build [file_b]
      ⟨⟨[⟨"b.md", "ts:0", 1, none, true⟩],
        [⟨"a.md", some "A", "[]", none, none⟩, ⟨"b.md", some "B", "[]", none, none⟩]⟩,
       ⟨true, [], [⟨"a.md", some "A", "alpha"⟩, ⟨"b.md", some "B", "beta"⟩]⟩⟩
      ⟨1, 1, 1, 1⟩ (by simp) (by rfl) (by rfl)).2.2.1

/-- Helper: the absolute value of the truncated whole-second duration is the
millisecond absolute value divided by 1000. -/
theorem num_seconds_ms_natAbs (d : Int) :
    (num_seconds_ms d).natAbs = d.natAbs / 1000 := by
  unfold num_seconds_ms
  split <;> omega

/-- Helper: the freshness comparison succeeds iff the mtimes are at least two
full seconds apart. -/
theorem needs_update_threshold (em : Timestamp) (ex : FileEntry) :
    needs_update (some em) (some ex) = true ↔ 2000 ≤ (em - ex.mtime).natAbs := by
  unfold needs_update
  simp only [decide_eq_true_eq]
  rw [num_seconds_ms_natAbs]
  omega

end Fracta

namespace Fracta

/-- Helper: a row lookup through the stale filter is unchanged for a live
path. -/
theorem find_filter_contains (l : List FileRow) (paths : List String) (q : String)
    (hq : paths.contains q = true) :
    (l.filter (fun r => paths.contains r.path)).find? (fun r => r.path = q)
      = l.find? (fun r => r.path = q) := by
  induction l with
  | nil => rfl
  | cons r rest ih =>
    by_cases h : r.path = q
    · have hc : paths.contains r.path = true := by rw [h]; exact hq
      rw [List.filter_cons_of_pos (by simpa using hc),
        List.find?_cons_of_pos _ (by simpa using h),
        List.find?_cons_of_pos _ (by simpa using h)]
    · by_cases hc : paths.contains r.path = true
      · rw [List.filter_cons_of_pos (by simpa using hc),
          List.find?_cons_of_neg _ (by simpa using h),
          List.find?_cons_of_neg _ (by simpa using h)]
        exact ih
      · rw [List.filter_cons_of_neg (by simpa using hc),
          List.find?_cons_of_neg _ (by simpa using h)]
        exact ih

/-- Helper: the row found at a path determines the looked-up entry. -/
theorem lookup_entry_congr (c : Codec) (now : Timestamp) (db db' : DB) (q : String)
    (h : row_at db q = row_at db' q) :
    lookup_entry c now db q = lookup_entry c now db' q := by
  unfold lookup_entry
  rw [h]

/-- Helper: full characterization of the `update_incremental` freshness loop
on a duplicate-free file list. -/
theorem inc_fold_ok (c : Codec) (now : Timestamp) :
    ∀ (files : List DiskFile) (st : IndexState) (stats : BuildStats),
      st.search.writer_open = true →
      (files.map (fun f => f.rel_path)).Nodup →
      ∃ stF statsF,
        files.foldlM (inc_step c now) ((st, stats) : IndexState × BuildStats)
          = .ok (stF, statsF)
        ∧ stF.search.writer_open = true
        ∧ (∀ q, (∀ f ∈ files, f.rel_path ≠ q) → row_at stF.metadata q = row_at st.metadata q)
        ∧ (∀ f ∈ files,
            needs_update f.modified (lookup_entry c now st.metadata f.rel_path) = false →
            row_at stF.metadata f.rel_path = row_at st.metadata f.rel_path) := by
  intro files
  induction files with
  | nil =>
    intro st stats hw _
    exact ⟨st, stats, rfl, hw, fun q _ => rfl, fun f hf => absurd hf (List.not_mem_nil f)⟩
  | cons g rest ih =>
    intro st stats hw hnd
    have hnd_rest : (rest.map (fun f => f.rel_path)).Nodup := (List.nodup_cons.mp hnd).2
    have hg_not : g.rel_path ∉ rest.map (fun f => f.rel_path) := (List.nodup_cons.mp hnd).1
    have hstep0 : inc_step c now (st, stats) g
        = (if needs_update g.modified (lookup_entry c now st.metadata g.rel_path) then
            index_file c now st stats g
          else .ok (st, stats)) := by
      unfold inc_step get_file
      rfl
    cases hn : needs_update g.modified (lookup_entry c now st.metadata g.rel_path) with
    | true =>
      obtain ⟨db1, si1, stats1, hstep, hw1, _, _, hrow1, _, _, _⟩ :=
        index_file_ok c now st stats g hw
      obtain ⟨stF, statsF, hfold, hwF, hrowF, hretF⟩ := ih ⟨db1, si1⟩ stats1 hw1 hnd_rest
      refine ⟨stF, statsF, ?_, hwF, ?_, ?_⟩
      · rw [List.foldlM_cons]
        show (inc_step c now (st, stats) g >>= fun b => rest.foldlM (inc_step c now) b)
          = .ok (stF, statsF)
        rw [hstep0, hn, if_pos rfl, hstep, except_bind_ok]
        exact hfold
      · intro q hq
        rw [hrowF q (fun f hf => hq f (List.mem_cons_of_mem _ hf))]
        exact hrow1 q (fun hh => hq g (List.mem_cons_self _ _) hh.symm)
      · intro f hf hneed
        rcases List.mem_cons.mp hf with h | h
        · subst h
          rw [hneed] at hn
          cases hn
        · have hne : f.rel_path ≠ g.rel_path := by
            intro hh
            exact hg_not (hh ▸ List.mem_map_of_mem (fun f => f.rel_path) h)
          have hrow_g : row_at db1 f.rel_path = row_at st.metadata f.rel_path :=
            hrow1 f.rel_path hne
          rw [hretF f h (by
            rw [lookup_entry_congr c now db1 st.metadata f.rel_path hrow_g]
            exact hneed)]
          exact hrow_g
    | false =>
      obtain ⟨stF, statsF, hfold, hwF, hrowF, hretF⟩ := ih st stats hw hnd_rest
      refine ⟨stF, statsF, ?_, hwF, ?_, ?_⟩
      · rw [List.foldlM_cons]
        show (inc_step c now (st, stats) g >>= fun b => rest.foldlM (inc_step c now) b)
          = .ok (stF, statsF)
        rw [hstep0, hn, if_neg (by simp), except_bind_ok]
        exact hfold
      · intro q hq
        exact hrowF q (fun f hf => hq f (List.mem_cons_of_mem _ hf))
      · intro f hf hneed
        rcases List.mem_cons.mp hf with h | h
        · subst h
          exact hrowF f.rel_path (fun f' hf' hh => by
            exact hg_not (hh ▸ List.mem_map_of_mem (fun f => f.rel_path) hf'))
        · exact hretF f h hneed

end Fracta

namespace Fracta

/-- C7 amended. -/
theorem update_incremental_freshness :
    (∀ (em : Option Timestamp) (ex : Option FileEntry),
        needs_update em ex = true ↔
          em = none ∨ ex = none
          ∨ ∃ t e, em = some t ∧ ex = some e ∧ 2000 ≤ (t - e.mtime).natAbs)
    ∧ (∀ (c : Codec) (now : Timestamp) (st : IndexState) (files : List DiskFile)
        (st' : IndexState) (s' : BuildStats),
        (files.map (fun f => f.rel_path)).Nodup →
        update_incremental c now st files = .ok (st', s') →
        ∀ f ∈ files,
          needs_update f.modified (lookup_entry c now st.metadata f.rel_path) = false →
          row_at st'.metadata f.rel_path = row_at st.metadata f.rel_path) := by
  constructor
  · intro em ex
    cases em with
    | none => simp [needs_update]
    | some t =>
      cases ex with
      | none => simp [needs_update]
      | some e =>
        rw [needs_update_threshold]
        simp
  · intro c now st files st' s' hnd hb f hf hneed
    obtain ⟨stF, statsF, hfold, hwF, hrowF, hretF⟩ :=
      inc_fold_ok c now files ⟨st.metadata, begin_write st.search⟩ ⟨files.length, 0, 0, 0⟩
        (begin_write_writer_open st.search) hnd
    unfold update_incremental at hb
    dsimp only at hb
    rw [hfold] at hb
    dsimp only at hb
    rw [remove_stale_files_nodup_eq stF.metadata _ hnd] at hb
    dsimp only at hb
    cases hb
    show row_at ⟨stF.metadata.files.filter _, stF.metadata.metadata⟩ f.rel_path = _
    unfold row_at
    rw [find_filter_contains _ _ _
      (by simpa using List.mem_map_of_mem (fun f => f.rel_path) hf)]
    exact hretF f hf hneed

/-- C7 witness. -/
theorem update_incremental_freshness_witness :
    row_at (⟨⟨[⟨"a.md", "ts:0", 1, none, true⟩], []⟩,
        ⟨true, [], []⟩⟩ : IndexState).metadata "a.md"
      = row_at st_c7.metadata "a.md" :=
  update_incremental_freshness.2 codec_demo 9999 st_c7 [file_a_1500]
    ⟨⟨[⟨"a.md", "ts:0", 1, none, true⟩], []⟩, ⟨true, [], []⟩⟩ ⟨1, 0, 0, 0⟩
    (by simp) (by rfl) file_a_1500 (List.mem_cons_self _ _) (by rfl)

end Fracta
